import Mathlib

/-
Verification of the htmlnode package (src/htmlnode.go).

The Go code operates on pointer-linked html.Node trees (fields Type, Data,
Namespace, Attr, Parent, FirstChild, LastChild, NextSibling, PrevSibling).
We embed the node graph as a rose tree (HNode) together with a zipper
position (Pos) giving a node its parent chain and sibling context; the
spec's data-model invariants (proper tree, sibling links consistent with
the parent's child list) make this embedding faithful, and pointer
equality of nodes inside one tree corresponds to equality of positions.
-/

namespace Htmlnode

/-- The closed tag set html.NodeType: ErrorNode, TextNode, DocumentNode,
ElementNode, CommentNode, DoctypeNode. -/
inductive NType : Type where
  | errorNode : NType
  | textNode : NType
  | documentNode : NType
  | elementNode : NType
  | commentNode : NType
  | doctypeNode : NType
deriving DecidableEq

/-- html.Attribute: a (Namespace, Key, Val) triple. -/
structure HAttribute : Type where
  nameSpace : String
  key : String
  val : String
deriving DecidableEq

/-- The scalar fields of an html.Node: Type, Data, Namespace, Attr. -/
structure NData : Type where
  ntype : NType
  data : String
  nameSpace : String
  attr : List HAttribute
deriving DecidableEq

/-- A subtree of the document graph: node fields plus the list of children
in order.  The pointer links FirstChild, LastChild, NextSibling,
PrevSibling and Parent of the Go data type are recovered from positions
(Pos) below. -/
inductive HNode : Type where
  | mk : NData → List HNode → HNode

/-- The scalar data of a subtree's root node. -/
def HNode.ndata : HNode → NData
  | HNode.mk d _ => d

/-- The children of a subtree's root node, in order. -/
def HNode.children : HNode → List HNode
  | HNode.mk _ cl => cl

mutual

/-- Structural equality test on subtrees (used to build decidable equality,
which the Go side gets for free from pointer identity plus the tree shape). -/
def HNode.beq : HNode → HNode → Bool
  | HNode.mk d cl, HNode.mk d' cl' => decide (d = d') && HNode.beqL cl cl'

/-- Structural equality test on child lists. -/
def HNode.beqL : List HNode → List HNode → Bool
  | [], [] => true
  | c :: r, c' :: r' => HNode.beq c c' && HNode.beqL r r'
  | [], _ :: _ => false
  | _ :: _, [] => false

end

theorem HNode.sizeOf_pos (t : HNode) : 0 < sizeOf t := by
  cases t with
  | mk d cl => simp

/-- Induction on subtrees through the nested list of children. -/
theorem HNode.strongRecOn {P : HNode → Prop}
    (h : ∀ d cl, (∀ c, c ∈ cl → P c) → P (HNode.mk d cl)) : ∀ t, P t := by
  have key : ∀ n t, sizeOf t ≤ n → P t := by
    intro n
    induction n with
    | zero =>
      intro t ht
      exact absurd ht (by have := HNode.sizeOf_pos t; omega)
    | succ n ih =>
      intro t ht
      cases t with
      | mk d cl =>
        apply h
        intro c hc
        apply ih
        have h1 : sizeOf c < sizeOf cl := List.sizeOf_lt_of_mem hc
        have h2 : sizeOf (HNode.mk d cl) = 1 + sizeOf d + sizeOf cl := by simp
        omega
  intro t
  exact key (sizeOf t) t (le_refl _)

theorem HNode.beqL_iff (cl : List HNode)
    (ih : ∀ c, c ∈ cl → ∀ b, HNode.beq c b = true ↔ c = b) :
    ∀ cl', HNode.beqL cl cl' = true ↔ cl = cl' := by
  induction cl with
  | nil =>
    intro cl'
    cases cl' with
    | nil => simp [HNode.beqL]
    | cons c' r' => simp [HNode.beqL]
  | cons c r ihr =>
    intro cl'
    cases cl' with
    | nil => simp [HNode.beqL]
    | cons c' r' =>
      have hc := ih c (by simp) c'
      have hr := ihr (fun x hx b => ih x (by simp [hx]) b) r'
      simp [HNode.beqL, Bool.and_eq_true, hc, hr]

theorem HNode.beq_iff : ∀ a b : HNode, HNode.beq a b = true ↔ a = b := by
  apply HNode.strongRecOn (P := fun a => ∀ b, HNode.beq a b = true ↔ a = b)
  intro d cl ih b
  cases b with
  | mk d' cl' =>
    have hl := HNode.beqL_iff cl ih cl'
    simp [HNode.beq, Bool.and_eq_true, hl]

instance : DecidableEq HNode := fun a b =>
  decidable_of_iff (HNode.beq a b = true) (HNode.beq_iff a b)

/-- One level of parent context for a focused subtree: the parent node's
scalar data, the earlier siblings (nearest first, i.e. stored reversed)
and the later siblings in order. -/
structure Crumb : Type where
  ndata : NData
  left : List HNode
  right : List HNode
deriving DecidableEq

/-- Plug a subtree back into its context level, recovering the parent
subtree. -/
def Crumb.fill : Crumb → HNode → HNode
  | ⟨d, l, r⟩, t => HNode.mk d (l.reverse ++ t :: r)

/-- A node in a document tree: the subtree rooted at that node plus the
stack of contexts up to the absolute root.  Two distinct nodes of one
tree always have distinct Pos values, so Go pointer equality inside one
tree is Pos equality. -/
structure Pos : Type where
  tree : HNode
  ctxs : List Crumb
deriving DecidableEq

/-- The scalar data of the node at a position (the fields Compare reads). -/
def Pos.nd (p : Pos) : NData := p.tree.ndata

/-- The Parent pointer: none at an absolute root. -/
def Pos.parent : Pos → Option Pos
  | ⟨_, []⟩ => none
  | ⟨t, c :: cs⟩ => some ⟨c.fill t, cs⟩

/-- The FirstChild pointer. -/
def Pos.firstChild : Pos → Option Pos
  | ⟨HNode.mk _ [], _⟩ => none
  | ⟨HNode.mk d (c :: r), cs⟩ => some ⟨c, ⟨d, [], r⟩ :: cs⟩

/-- The LastChild pointer. -/
def Pos.lastChild : Pos → Option Pos
  | ⟨HNode.mk d cl, cs⟩ =>
    match cl.reverse with
    | [] => none
    | c :: lrev => some ⟨c, ⟨d, lrev, []⟩ :: cs⟩

/-- The NextSibling pointer. -/
def Pos.nextSibling : Pos → Option Pos
  | ⟨_, []⟩ => none
  | ⟨_, ⟨_, _, []⟩ :: _⟩ => none
  | ⟨t, ⟨d, l, s :: r⟩ :: cs⟩ => some ⟨s, ⟨d, t :: l, r⟩ :: cs⟩

/-- The PrevSibling pointer. -/
def Pos.prevSibling : Pos → Option Pos
  | ⟨_, []⟩ => none
  | ⟨_, ⟨_, [], _⟩ :: _⟩ => none
  | ⟨t, ⟨d, c :: l, r⟩ :: cs⟩ => some ⟨c, ⟨d, l, t :: r⟩ :: cs⟩

/-- The node at a position together with its chain of ancestors, the node
itself first, the absolute root last. -/
def ancChain : HNode → List Crumb → List Pos
  | t, [] => [⟨t, []⟩]
  | t, c :: cs => ⟨t, c :: cs⟩ :: ancChain (c.fill t) cs

/-- The ancestor chain of a position (itself, then its parents upward). -/
def Pos.ancestors (p : Pos) : List Pos := ancChain p.tree p.ctxs

/-- Core of Compare for two present nodes: same Type, Data and Namespace
fields, and every attribute of the second node occurs (as an exact
namespace/key/value triple) among the attributes of the first.  The Go
code realises the membership test with a set (map) built from the first
node's attributes. -/
def CompareData (d1 d2 : NData) : Bool :=
  if d1.ntype ≠ d2.ntype ∨ d1.data ≠ d2.data ∨ d1.nameSpace ≠ d2.nameSpace then false
  else d2.attr.all fun a => d1.attr.any fun b => decide (b = a)

/-- Compare (htmlnode.go lines 143-161): false when either node pointer is
nil, otherwise CompareData on the two nodes' scalar fields. -/
def Compare (n1 n2 : Option Pos) : Bool :=
  match n1, n2 with
  | some p1, some p2 => CompareData p1.nd p2.nd
  | none, _ => false
  | _, none => false

/-- The loop of Match, phrased as structural recursion on the first
node's context stack.  The Go loop runs while both pointers are non-nil:
it returns false as soon as Compare fails, otherwise replaces both
pointers by their parents; after the loop it returns false exactly when
the first pointer is nil and the second is not.  Here both nodes are
present (tree plus context each); stepping to the parents keeps both
present exactly when both context stacks are non-empty. -/
def matchAux : HNode → List Crumb → HNode → List Crumb → Bool
  | t1, cs1, t2, cs2 =>
    if CompareData t1.ndata t2.ndata then
      match cs1, cs2 with
      | c1 :: cs1', c2 :: cs2' => matchAux (c1.fill t1) cs1' (c2.fill t2) cs2'
      | [], _ :: _ => false
      | _, [] => true
    else false

/-- Match (htmlnode.go lines 167-179): walk the two parent chains upward
in lock step applying Compare. -/
def Match (n1 n2 : Option Pos) : Bool :=
  match n1, n2 with
  | some p1, some p2 => matchAux p1.tree p1.ctxs p2.tree p2.ctxs
  | none, some _ => false
  | _, none => true

/-- The loop of Leaf that repeatedly follows FirstChild down to a leaf. -/
def descendFirst : HNode → List Crumb → Pos
  | HNode.mk d [], cs => ⟨HNode.mk d [], cs⟩
  | HNode.mk d (c :: r), cs => descendFirst c (⟨d, [], r⟩ :: cs)

/-- Leaf (htmlnode.go lines 190-204).  The call to the external parser
html.ParseFragment is the collaborator of section 6 of the spec; its
outcome is the pair of arguments here: err is whether it reported an
error and ns the returned sequence of root nodes (each possibly nil).
On error or empty result Leaf returns a fresh node of type ErrorNode;
otherwise it takes the first root (nil propagates to nil) and follows
FirstChild until reaching a leaf. -/
def Leaf (err : Bool) (ns : List (Option Pos)) : Option Pos :=
  if err = true ∨ ns = [] then
    some ⟨HNode.mk ⟨NType.errorNode, "", "", []⟩ [], []⟩
  else
    match ns with
    | [] => none
    | n0 :: _ =>
      match n0 with
      | none => none
      | some p => some (descendFirst p.tree p.ctxs)

/-- The ascent loop of Next (htmlnode.go lines 283-293): while the
current node has no next sibling, stop with nil if its parent is nil or
it is the root, otherwise move to the parent decrementing delta; when a
sibling exists, stop with nil if the current node is the root, else
return the sibling. -/
def nextAscend (root : Option Pos) : HNode → List Crumb → Int → Option Pos × Int
  | _, [], delta => (none, delta)
  | t, ⟨d, l, s :: r⟩ :: cs, delta =>
    if some (⟨t, ⟨d, l, s :: r⟩ :: cs⟩ : Pos) = root then (none, delta)
    else (some ⟨s, ⟨d, t :: l, r⟩ :: cs⟩, delta)
  | t, ⟨d, l, []⟩ :: cs, delta =>
    if some (⟨t, ⟨d, l, []⟩ :: cs⟩ : Pos) = root then (none, delta)
    else nextAscend root (HNode.mk d (l.reverse ++ [t])) cs (delta - 1)

/-- Next (htmlnode.go lines 274-294): the next node of the depth first
traversal of the tree at root, together with the depth delta. -/
def Next (n root : Option Pos) : Option Pos × Int :=
  match n with
  | none => (none, 0)
  | some p =>
    match p.firstChild with
    | some c => (some c, 1)
    | none => nextAscend root p.tree p.ctxs 0

/-- The ascent loop of Prev (htmlnode.go lines 306-316), the mirror image
of the ascent loop of Next with PrevSibling in place of NextSibling. -/
def prevAscend (root : Option Pos) : HNode → List Crumb → Int → Option Pos × Int
  | _, [], delta => (none, delta)
  | t, ⟨d, c :: l, r⟩ :: cs, delta =>
    if some (⟨t, ⟨d, c :: l, r⟩ :: cs⟩ : Pos) = root then (none, delta)
    else (some ⟨c, ⟨d, l, t :: r⟩ :: cs⟩, delta)
  | t, ⟨d, [], r⟩ :: cs, delta =>
    if some (⟨t, ⟨d, [], r⟩ :: cs⟩ : Pos) = root then (none, delta)
    else prevAscend root (HNode.mk d (t :: r)) cs (delta - 1)

/-- Prev (htmlnode.go lines 297-317): like Next with LastChild and
PrevSibling in place of FirstChild and NextSibling. -/
def Prev (n root : Option Pos) : Option Pos × Int :=
  match n with
  | none => (none, 0)
  | some p =>
    match p.lastChild with
    | some c => (some c, 1)
    | none => prevAscend root p.tree p.ctxs 0

/-- The sequence of nodes visited by repeatedly applying Next, starting
at n and bounded by root; the first argument is fuel making the
iteration structurally total (the traversal theorems below show that
fuel equal to the subtree's node count always completes the walk). -/
def travList : Nat → Option Pos → Option Pos → List Pos
  | 0, _, _ => []
  | _ + 1, none, _ => []
  | fuel + 1, some p, root => p :: travList fuel (Next (some p) root).1 root

/-- The deltas returned by the successive calls to Next over a traversal,
including the delta of the final exhausted call that returns none. -/
def travDeltas : Nat → Option Pos → Option Pos → List Int
  | 0, _, _ => []
  | _ + 1, none, _ => []
  | fuel + 1, some p, root => (Next (some p) root).2 :: travDeltas fuel (Next (some p) root).1 root

/-- The sequence of nodes visited by repeatedly applying Prev. -/
def travListPrev : Nat → Option Pos → Option Pos → List Pos
  | 0, _, _ => []
  | _ + 1, none, _ => []
  | fuel + 1, some p, root => p :: travListPrev fuel (Prev (some p) root).1 root

/-- The contribution of one visited node to Flatten: its Data field when
it is a TextNode, nothing otherwise. -/
def textOf (p : Pos) : String :=
  if p.nd.ntype = NType.textNode then p.nd.data else ""

/-- The loop of Flatten (htmlnode.go lines 342-350): walk the tree under
root appending the Data fields of all TextNodes, in traversal order. -/
def flattenLoop : Nat → Option Pos → Option Pos → String
  | 0, _, _ => ""
  | _ + 1, none, _ => ""
  | fuel + 1, some p, root =>
    textOf p ++ flattenLoop fuel (Next (some p) root).1 root

/-- Flatten (htmlnode.go lines 342-350), with fuel making the loop
structurally total. -/
def Flatten (fuel : Nat) (root : Option Pos) : String :=
  flattenLoop fuel root root

theorem ancChain_length : ∀ (cs : List Crumb) (t : HNode),
    (ancChain t cs).length = cs.length + 1 := by
  intro cs
  induction cs with
  | nil => intro t; simp [ancChain]
  | cons c cs' ih => intro t; simp [ancChain, ih]

theorem compareData_eq_true_iff (d1 d2 : NData) :
    CompareData d1 d2 = true ↔
      d1.ntype = d2.ntype ∧ d1.data = d2.data ∧ d1.nameSpace = d2.nameSpace ∧
        ∀ a, a ∈ d2.attr → a ∈ d1.attr := by
  unfold CompareData
  by_cases h : d1.ntype ≠ d2.ntype ∨ d1.data ≠ d2.data ∨ d1.nameSpace ≠ d2.nameSpace
  · rw [if_pos h]
    constructor
    · intro hfalse
      exact absurd hfalse (by simp)
    · intro hcon
      exfalso
      rcases h with h | h | h
      · exact h hcon.1
      · exact h hcon.2.1
      · exact h hcon.2.2.1
  · rw [if_neg h]
    push_neg at h
    simp only [List.all_eq_true, List.any_eq_true, decide_eq_true_iff]
    constructor
    · intro hsub
      refine ⟨h.1, h.2.1, h.2.2, fun a ha => ?_⟩
      obtain ⟨b, hb, hba⟩ := hsub a ha
      exact hba ▸ hb
    · intro hcon a ha
      exact ⟨a, hcon.2.2.2 a ha, rfl⟩

theorem matchAux_chain : ∀ (cs1 : List Crumb) (t1 t2 : HNode) (cs2 : List Crumb),
    matchAux t1 cs1 t2 cs2
      = (decide ((ancChain t2 cs2).length ≤ (ancChain t1 cs1).length)
         && ((ancChain t1 cs1).zip (ancChain t2 cs2)).all
              fun q => Compare (some q.1) (some q.2)) := by
  intro cs1
  induction cs1 with
  | nil =>
    intro t1 t2 cs2
    cases cs2 with
    | nil =>
      cases hC : CompareData t1.ndata t2.ndata with
      | false => simp [matchAux, ancChain, Compare, Pos.nd, hC]
      | true => simp [matchAux, ancChain, Compare, Pos.nd, hC]
    | cons c2 cs2' =>
      have hlen : ¬ (ancChain t2 (c2 :: cs2')).length ≤ (ancChain t1 []).length := by
        simp only [ancChain_length, List.length_cons, List.length_nil]
        omega
      cases hC : CompareData t1.ndata t2.ndata with
      | false => simp [matchAux, hC, hlen]
      | true => simp [matchAux, hC, hlen]
  | cons c1 cs1' ih =>
    intro t1 t2 cs2
    cases cs2 with
    | nil =>
      cases hC : CompareData t1.ndata t2.ndata with
      | false => simp [matchAux, ancChain, Compare, Pos.nd, hC]
      | true =>
        have h1 : (ancChain t2 []).length ≤ (ancChain t1 (c1 :: cs1')).length := by
          simp only [ancChain_length, List.length_cons, List.length_nil]
          omega
        simp [matchAux, ancChain, Compare, Pos.nd, hC, h1]
    | cons c2 cs2' =>
      cases hC : CompareData t1.ndata t2.ndata with
      | false =>
        have hcmp : Compare (some (⟨t1, c1 :: cs1'⟩ : Pos)) (some (⟨t2, c2 :: cs2'⟩ : Pos)) = false := by
          simp [Compare, Pos.nd, hC]
        simp [matchAux, hC, ancChain, hcmp]
      | true =>
        conv_lhs => rw [matchAux]
        rw [if_pos hC]
        show matchAux (c1.fill t1) cs1' (c2.fill t2) cs2' = _
        rw [ih]
        have hcmp : Compare (some (⟨t1, c1 :: cs1'⟩ : Pos)) (some (⟨t2, c2 :: cs2'⟩ : Pos)) = true := by
          simp [Compare, Pos.nd, hC]
        simp only [ancChain, List.zip_cons_cons, List.all_cons, hcmp, Bool.true_and]
        congr 1
        rw [decide_eq_decide]
        simp only [List.length_cons, ancChain_length]
        omega

/-- C1: for every candidate node n1 and probe node n2, Match walks the
two parent chains upward in lock step applying Compare at each step; it
is false as soon as Compare fails with both nodes present, true when
n2's chain is exhausted first or simultaneously with n1's (all pairwise
comparisons having succeeded), and false when n1's chain is exhausted
strictly before n2's.  Stated extensionally: Match (some n1) (some n2)
holds exactly when n2's ancestor chain is no longer than n1's and
Compare succeeds on every aligned pair of the two chains. -/
theorem match_walks_parent_chains (p1 p2 : Pos) :
    Match (some p1) (some p2)
      = (decide (p2.ancestors.length ≤ p1.ancestors.length)
         && (p1.ancestors.zip p2.ancestors).all
              fun q => Compare (some q.1) (some q.2)) :=
  matchAux_chain p1.ctxs p1.tree p2.tree p2.ctxs

/-- C2: Compare is false when either node reference is absent; for two
present nodes it is true exactly when the two nodes agree on type, data
and namespace and every attribute triple of the second node also occurs
on the first (attributes only on the first node are ignored). -/
theorem compare_spec :
    (∀ n : Option Pos, Compare none n = false ∧ Compare n none = false) ∧
    (∀ p1 p2 : Pos,
      Compare (some p1) (some p2) = true ↔
        p1.nd.ntype = p2.nd.ntype ∧ p1.nd.data = p2.nd.data ∧
          p1.nd.nameSpace = p2.nd.nameSpace ∧
          ∀ a, a ∈ p2.nd.attr → a ∈ p1.nd.attr) := by
  constructor
  · intro n
    constructor
    · cases n <;> rfl
    · cases n <;> rfl
  · intro p1 p2
    exact compareData_eq_true_iff p1.nd p2.nd

/-- C7: Compare is reflexive on every present node: a node always
compares equal to itself, the attribute subset check of a node's own
attribute list against itself (duplicates included) holding trivially. -/
theorem compare_refl (p : Pos) : Compare (some p) (some p) = true := by
  show CompareData p.nd p.nd = true
  exact (compareData_eq_true_iff p.nd p.nd).2 ⟨rfl, rfl, rfl, fun a ha => ha⟩

/-- C5 counterexample: the claim says Match returns false whenever the
candidate node is absent, for every probe node, present or absent; but
with both arguments absent the loop of Match is skipped and the final
test (first nil and second non-nil) fails, so Match returns true. -/
theorem match_nil_nil_true : Match (none : Option Pos) (none : Option Pos) = true := rfl

/-- C5 amended: if the candidate node is absent and the probe node is
present, Match returns false; if both are absent, Match returns true;
absent-node inputs are handled as ordinary values, never as a fault. -/
theorem match_absent_candidate :
    (∀ p2 : Pos, Match none (some p2) = false) ∧
      Match (none : Option Pos) (none : Option Pos) = true :=
  ⟨fun _ => rfl, rfl⟩

/-- The sentinel node Leaf builds on parse failure: a fresh parentless,
childless node of type ErrorNode with zero-valued fields. -/
def errorLeaf : Pos := ⟨HNode.mk ⟨NType.errorNode, "", "", []⟩ [], []⟩

theorem descendFirst_no_child : ∀ t : HNode, ∀ cs, (descendFirst t cs).firstChild = none := by
  apply HNode.strongRecOn (P := fun t => ∀ cs, (descendFirst t cs).firstChild = none)
  intro d cl ih cs
  cases cl with
  | nil => rfl
  | cons c r => exact ih c (by simp) (⟨d, [], r⟩ :: cs)

/-- C6: whenever the parser collaborator reports an error or returns no
roots, Leaf returns (it does not raise) the ErrorNode sentinel, and that
sentinel fails Compare, in either argument order, against every node
whose type is not ErrorNode — so a search with an unparseable pattern
degrades to no matches. -/
theorem leaf_error_sentinel (err : Bool) (ns : List (Option Pos)) (q : Pos)
    (h : err = true ∨ ns = []) (hq : ¬ q.nd.ntype = NType.errorNode) :
    Leaf err ns = some errorLeaf ∧
      errorLeaf.nd.ntype = NType.errorNode ∧
      Compare (some errorLeaf) (some q) = false ∧
      Compare (some q) (some errorLeaf) = false := by
  obtain ⟨⟨dq, clq⟩, csq⟩ := q
  simp only [Pos.nd, HNode.ndata] at hq
  have hq' : ¬ NType.errorNode = dq.ntype := fun hh => hq hh.symm
  refine ⟨?_, rfl, ?_, ?_⟩
  · rw [Leaf.eq_def, if_pos h]
    rfl
  · simp [Compare, CompareData, errorLeaf, Pos.nd, HNode.ndata, hq']
  · simp [Compare, CompareData, errorLeaf, Pos.nd, HNode.ndata, hq]

/-- Witness for C6 at the concrete input err = true, ns = [] and a
concrete element probe node. -/
theorem leaf_error_sentinel_witness :
    ((true = true ∨ ([] : List (Option Pos)) = []) ∧
      ¬ (⟨HNode.mk ⟨NType.elementNode, "div", "", []⟩ [], []⟩ : Pos).nd.ntype = NType.errorNode) ∧
    (Leaf true [] = some errorLeaf ∧
      errorLeaf.nd.ntype = NType.errorNode ∧
      Compare (some errorLeaf) (some ⟨HNode.mk ⟨NType.elementNode, "div", "", []⟩ [], []⟩) = false ∧
      Compare (some ⟨HNode.mk ⟨NType.elementNode, "div", "", []⟩ [], []⟩) (some errorLeaf) = false) :=
  ⟨⟨Or.inl rfl, by decide⟩,
    leaf_error_sentinel true [] ⟨HNode.mk ⟨NType.elementNode, "div", "", []⟩ [], []⟩
      (Or.inl rfl) (by decide)⟩

/-- C9: whenever Leaf returns a present node, that node has no first
child: it is a leaf, sitting at the bottom of its own ancestor chain. -/
theorem leaf_returns_childless (err : Bool) (ns : List (Option Pos)) (p : Pos)
    (h : Leaf err ns = some p) : p.firstChild = none := by
  by_cases hc : err = true ∨ ns = []
  · rw [Leaf.eq_def, if_pos hc] at h
    cases h
    rfl
  · rw [Leaf.eq_def, if_neg hc] at h
    push_neg at hc
    cases ns with
    | nil => exact absurd rfl hc.2
    | cons n0 rest =>
      cases n0 with
      | none => exact absurd h (by simp)
      | some p0 =>
        simp only [Option.some.injEq] at h
        rw [← h]
        exact descendFirst_no_child p0.tree p0.ctxs

/-- Witness for C9 at a concrete parser result: a single root with one
child, so Leaf descends one step and returns the childless child. -/
theorem leaf_returns_childless_witness :
    Leaf false [some ⟨HNode.mk ⟨NType.elementNode, "div", "", []⟩
        [HNode.mk ⟨NType.textNode, "x", "", []⟩ []], []⟩]
      = some ⟨HNode.mk ⟨NType.textNode, "x", "", []⟩ [],
          [⟨⟨NType.elementNode, "div", "", []⟩, [], []⟩]⟩ ∧
    (⟨HNode.mk ⟨NType.textNode, "x", "", []⟩ [],
        [⟨⟨NType.elementNode, "div", "", []⟩, [], []⟩]⟩ : Pos).firstChild = none := by
  have hl : Leaf false [some ⟨HNode.mk ⟨NType.elementNode, "div", "", []⟩
      [HNode.mk ⟨NType.textNode, "x", "", []⟩ []], []⟩]
      = some ⟨HNode.mk ⟨NType.textNode, "x", "", []⟩ [],
          [⟨⟨NType.elementNode, "div", "", []⟩, [], []⟩]⟩ := by
    simp [Leaf, descendFirst]
  exact ⟨hl, leaf_returns_childless false _ _ hl⟩

/-- The root bound (when present) sits at depth at most k: every node the
traversal lemmas reason about below that bound then has a strictly longer
context stack than the bound, so the pointer comparison with the root
inside the ascent loops can only succeed at the bound itself. -/
def rootOK (root : Option Pos) (k : Nat) : Prop :=
  ∀ r : Pos, root = some r → r.ctxs.length ≤ k

theorem rootOK_mono {root : Option Pos} {k m : Nat} (h : rootOK root k) (hkm : k ≤ m) :
    rootOK root m :=
  fun r hr => le_trans (h r hr) hkm

theorem rootOK_ne {root : Option Pos} {k : Nat} (h : rootOK root k)
    (t : HNode) (cs : List Crumb) (hlen : k < cs.length) :
    some (⟨t, cs⟩ : Pos) ≠ root := by
  intro he
  have := h ⟨t, cs⟩ he.symm
  simp only at this
  omega

mutual

/-- The number of nodes of a subtree. -/
def count : HNode → Nat
  | HNode.mk _ cl => 1 + countL cl

/-- The total number of nodes of a list of subtrees. -/
def countL : List HNode → Nat
  | [] => 0
  | c :: r => count c + countL r

end

mutual

/-- The positions of all nodes of the subtree focused at (t, cs), in
preorder (node first, then the subtrees of its children left to right). -/
def posList : HNode → List Crumb → List Pos
  | HNode.mk d cl, cs => ⟨HNode.mk d cl, cs⟩ :: posChildren d [] cl cs

/-- The positions contributed by the children still to process (todo, in
order), under a parent with data d, already-processed earlier siblings
lrev (nearest first) and context cs. -/
def posChildren : NData → List HNode → List HNode → List Crumb → List Pos
  | _, _, [], _ => []
  | d, lrev, c :: r, cs =>
    posList c (⟨d, lrev, r⟩ :: cs) ++ posChildren d (c :: lrev) r cs

end

/-- The state of the forward traversal upon arriving at the first element
of todo (the next child to visit), or, when todo is exhausted, the state
after ascending out of the parent. -/
def childStart (d : NData) (lrev todo : List HNode) (cs : List Crumb)
    (root : Option Pos) : Option Pos :=
  match todo with
  | [] => (nextAscend root (HNode.mk d lrev.reverse) cs 0).1
  | c :: r => some ⟨c, ⟨d, lrev, r⟩ :: cs⟩

theorem travList_none (fuel : Nat) (root : Option Pos) :
    travList fuel none root = [] := by
  cases fuel <;> rfl

theorem travDeltas_none (fuel : Nat) (root : Option Pos) :
    travDeltas fuel none root = [] := by
  cases fuel <;> rfl

theorem travListPrev_none (fuel : Nat) (root : Option Pos) :
    travListPrev fuel none root = [] := by
  cases fuel <;> rfl

theorem nextAscend_shift : ∀ (cs : List Crumb) (t : HNode) (root : Option Pos) (delta : Int),
    nextAscend root t cs delta
      = ((nextAscend root t cs 0).1, delta + (nextAscend root t cs 0).2) := by
  intro cs
  induction cs with
  | nil => intro t root delta; simp [nextAscend]
  | cons c cs' ih =>
    intro t root delta
    obtain ⟨d, l, r⟩ := c
    cases r with
    | cons s r' =>
      simp only [nextAscend]
      by_cases hr : some (⟨t, ⟨d, l, s :: r'⟩ :: cs'⟩ : Pos) = root
      · rw [if_pos hr, if_pos hr]
        simp
      · rw [if_neg hr, if_neg hr]
        simp
    | nil =>
      simp only [nextAscend]
      by_cases hr : some (⟨t, ⟨d, l, []⟩ :: cs'⟩ : Pos) = root
      · rw [if_pos hr, if_pos hr]
        simp
      · rw [if_neg hr, if_neg hr]
        rw [ih, ih (HNode.mk d (l.reverse ++ [t])) root (0 - 1)]
        simp only [Prod.mk.injEq]
        exact ⟨trivial, by omega⟩

theorem nextAscend_self : ∀ (cs : List Crumb) (t : HNode),
    nextAscend (some ⟨t, cs⟩) t cs 0 = (none, 0) := by
  intro cs t
  cases cs with
  | nil => rfl
  | cons c cs' =>
    obtain ⟨d, l, r⟩ := c
    cases r with
    | nil => simp [nextAscend]
    | cons s r' => simp [nextAscend]

/-- The traversal equation for one whole subtree: with fuel for the
subtree's nodes plus some slack, the walk starting at the subtree's top
visits exactly the subtree's positions in preorder, then continues from
the state obtained by ascending out of the subtree. -/
def NextRunOK (t : HNode) : Prop :=
  ∀ (cs : List Crumb) (root : Option Pos) (fuel : Nat), rootOK root cs.length →
    travList (count t + fuel) (some ⟨t, cs⟩) root
      = posList t cs ++ travList fuel (nextAscend root t cs 0).1 root

theorem nextAscend_cons_first (d : NData) (lrev rest : List HNode) (c : HNode)
    (cs : List Crumb) (root : Option Pos)
    (hne : some (⟨c, ⟨d, lrev, rest⟩ :: cs⟩ : Pos) ≠ root) :
    (nextAscend root c (⟨d, lrev, rest⟩ :: cs) 0).1 = childStart d (c :: lrev) rest cs root := by
  cases rest with
  | nil =>
    simp only [nextAscend, childStart]
    rw [if_neg hne]
    rw [nextAscend_shift]
    simp [List.reverse_cons]
  | cons s r' =>
    simp only [nextAscend, childStart]
    rw [if_neg hne]

theorem nextRun_children : ∀ (todo : List HNode), (∀ c, c ∈ todo → NextRunOK c) →
    ∀ (d : NData) (lrev : List HNode) (cs : List Crumb) (root : Option Pos) (fuel : Nat),
      rootOK root cs.length →
      travList (countL todo + fuel) (childStart d lrev todo cs root) root
        = posChildren d lrev todo cs
            ++ travList fuel (nextAscend root (HNode.mk d (lrev.reverse ++ todo)) cs 0).1 root := by
  intro todo
  induction todo with
  | nil =>
    intro _ d lrev cs root fuel _
    simp [countL, childStart, posChildren]
  | cons c rest ihr =>
    intro iht d lrev cs root fuel hroot
    have hcnt : countL (c :: rest) + fuel = count c + (countL rest + fuel) := by
      rw [countL]; omega
    rw [hcnt]
    have hcs : childStart d lrev (c :: rest) cs root = some ⟨c, ⟨d, lrev, rest⟩ :: cs⟩ := rfl
    rw [hcs]
    have h1 := iht c (by simp) (⟨d, lrev, rest⟩ :: cs) root (countL rest + fuel)
      (rootOK_mono hroot (by simp))
    rw [h1]
    have hne : some (⟨c, ⟨d, lrev, rest⟩ :: cs⟩ : Pos) ≠ root :=
      rootOK_ne hroot c (⟨d, lrev, rest⟩ :: cs) (by simp)
    rw [nextAscend_cons_first d lrev rest c cs root hne]
    rw [ihr (fun x hx => iht x (by simp [hx])) d (c :: lrev) cs root fuel hroot]
    have htree : (c :: lrev).reverse ++ rest = lrev.reverse ++ (c :: rest) := by
      simp
    rw [htree, posChildren, List.append_assoc]

theorem nextRunOK_all : ∀ t : HNode, NextRunOK t := by
  apply HNode.strongRecOn
  intro d cl iht cs root fuel hroot
  have hcnt : count (HNode.mk d cl) + fuel = (countL cl + fuel) + 1 := by
    rw [count]; omega
  rw [hcnt, travList]
  have hfc : (Next (some ⟨HNode.mk d cl, cs⟩) root).1 = childStart d [] cl cs root := by
    cases cl with
    | nil => simp [Next, Pos.firstChild, childStart]
    | cons c r => simp [Next, Pos.firstChild, childStart]
  rw [hfc, nextRun_children cl iht d [] cs root fuel hroot]
  rw [posList]
  simp

theorem rootOK_self (t : HNode) (cs : List Crumb) : rootOK (some ⟨t, cs⟩) cs.length := by
  intro r hr
  have h : (⟨t, cs⟩ : Pos) = r := by injection hr
  rw [← h]

/-- Iterating Next from a subtree's top, bounded at that same node,
visits exactly the subtree's positions in preorder and then stops. -/
theorem trav_complete (t : HNode) (cs : List Crumb) (fuel : Nat) :
    travList (count t + fuel) (some ⟨t, cs⟩) (some ⟨t, cs⟩) = posList t cs := by
  rw [nextRunOK_all t cs (some ⟨t, cs⟩) fuel (rootOK_self t cs), nextAscend_self,
    travList_none, List.append_nil]

theorem nextAscend_nonpos : ∀ (cs : List Crumb) (t : HNode) (root : Option Pos),
    (nextAscend root t cs 0).2 ≤ 0 := by
  intro cs
  induction cs with
  | nil => intro t root; simp [nextAscend]
  | cons c cs' ih =>
    intro t root
    obtain ⟨d, l, r⟩ := c
    cases r with
    | cons s r' =>
      simp only [nextAscend]
      by_cases hr : some (⟨t, ⟨d, l, s :: r'⟩ :: cs'⟩ : Pos) = root
      · rw [if_pos hr]
      · rw [if_neg hr]
    | nil =>
      simp only [nextAscend]
      by_cases hr : some (⟨t, ⟨d, l, []⟩ :: cs'⟩ : Pos) = root
      · rw [if_pos hr]
      · rw [if_neg hr, nextAscend_shift]
        have := ih (HNode.mk d (l.reverse ++ [t])) root
        simp only
        omega

/-- The delta bookkeeping for one whole subtree: over the walk of the
subtree the deltas sum to the delta of the single ascent out of the
subtree's top, every descent into the subtree being matched by an
ascent back out. -/
def SumRunOK (t : HNode) : Prop :=
  ∀ (cs : List Crumb) (root : Option Pos) (fuel : Nat), rootOK root cs.length →
    (travDeltas (count t + fuel) (some ⟨t, cs⟩) root).sum
      = (nextAscend root t cs 0).2
          + (travDeltas fuel (nextAscend root t cs 0).1 root).sum

theorem sumRun_children : ∀ (todo : List HNode), todo ≠ [] → (∀ c, c ∈ todo → SumRunOK c) →
    ∀ (d : NData) (lrev : List HNode) (cs : List Crumb) (root : Option Pos) (fuel : Nat),
      rootOK root cs.length →
      (travDeltas (countL todo + fuel) (childStart d lrev todo cs root) root).sum
        = (nextAscend root (HNode.mk d (lrev.reverse ++ todo)) cs 0).2 - 1
            + (travDeltas fuel (nextAscend root (HNode.mk d (lrev.reverse ++ todo)) cs 0).1 root).sum := by
  intro todo
  induction todo with
  | nil => intro hne; exact absurd rfl hne
  | cons c rest ihr =>
    intro _ iht d lrev cs root fuel hroot
    have hcnt : countL (c :: rest) + fuel = count c + (countL rest + fuel) := by
      rw [countL]; omega
    rw [hcnt]
    have hcs : childStart d lrev (c :: rest) cs root = some ⟨c, ⟨d, lrev, rest⟩ :: cs⟩ := rfl
    rw [hcs]
    have h1 := iht c (by simp) (⟨d, lrev, rest⟩ :: cs) root (countL rest + fuel)
      (rootOK_mono hroot (by simp))
    rw [h1]
    have hne : some (⟨c, ⟨d, lrev, rest⟩ :: cs⟩ : Pos) ≠ root :=
      rootOK_ne hroot c (⟨d, lrev, rest⟩ :: cs) (by simp)
    cases rest with
    | nil =>
      have hstep : nextAscend root c (⟨d, lrev, []⟩ :: cs) 0
          = ((nextAscend root (HNode.mk d (lrev.reverse ++ [c])) cs 0).1,
              0 - 1 + (nextAscend root (HNode.mk d (lrev.reverse ++ [c])) cs 0).2) := by
        simp only [nextAscend]
        rw [if_neg hne, nextAscend_shift]
      rw [hstep]
      simp only [countL, Nat.zero_add]
      omega
    | cons s r' =>
      have hstep : nextAscend root c (⟨d, lrev, s :: r'⟩ :: cs) 0
          = (childStart d (c :: lrev) (s :: r') cs root, 0) := by
        simp only [nextAscend, childStart]
        rw [if_neg hne]
      rw [hstep]
      have h2 := ihr (by simp) (fun x hx => iht x (by simp [hx])) d (c :: lrev) cs root fuel hroot
      simp only at h2
      have htree : (c :: lrev).reverse ++ s :: r' = lrev.reverse ++ (c :: s :: r') := by
        simp
      rw [htree] at h2
      rw [h2]
      omega

theorem sumRunOK_all : ∀ t : HNode, SumRunOK t := by
  apply HNode.strongRecOn
  intro d cl iht cs root fuel hroot
  have hcnt : count (HNode.mk d cl) + fuel = (countL cl + fuel) + 1 := by
    rw [count]; omega
  rw [hcnt, travDeltas]
  cases cl with
  | nil =>
    have hnx : Next (some ⟨HNode.mk d [], cs⟩) root = nextAscend root (HNode.mk d []) cs 0 := by
      simp [Next, Pos.firstChild]
    rw [hnx]
    simp only [countL, Nat.zero_add, List.sum_cons]
  | cons c r =>
    have hnx : Next (some ⟨HNode.mk d (c :: r), cs⟩) root
        = (childStart d [] (c :: r) cs root, 1) := by
      simp [Next, Pos.firstChild, childStart]
    rw [hnx]
    simp only [List.sum_cons]
    have h2 := sumRun_children (c :: r) (by simp) iht d [] cs root fuel hroot
    simp only [List.reverse_nil, List.nil_append] at h2
    rw [h2]
    omega

/-- C4: over a complete forward traversal starting at any root bound,
the deltas returned by Next, including the delta of the final exhausted
call that returns an absent node, sum to zero: every descent is
eventually matched by an ascent. -/
theorem next_deltas_sum_zero (t : HNode) (cs : List Crumb) (fuel : Nat) :
    (travDeltas (count t + fuel) (some ⟨t, cs⟩) (some ⟨t, cs⟩)).sum = 0 := by
  have h := sumRunOK_all t cs (some ⟨t, cs⟩) fuel (rootOK_self t cs)
  rw [nextAscend_self] at h
  rw [h, travDeltas_none]
  simp

/-- The concatenation of the text contributions of a list of visited
positions, in order. -/
def joinTexts : List Pos → String
  | [] => ""
  | p :: ps => textOf p ++ joinTexts ps

theorem joinTexts_append : ∀ a b : List Pos, joinTexts (a ++ b) = joinTexts a ++ joinTexts b := by
  intro a b
  induction a with
  | nil => simp [joinTexts, String.empty_append]
  | cons p ps ih => simp [joinTexts, ih, String.append_assoc]

theorem flattenLoop_eq_join : ∀ (fuel : Nat) (n root : Option Pos),
    flattenLoop fuel n root = joinTexts (travList fuel n root) := by
  intro fuel
  induction fuel with
  | zero => intro n root; rfl
  | succ fuel ih =>
    intro n root
    cases n with
    | none => rfl
    | some p =>
      rw [flattenLoop, travList, joinTexts, ih]

mutual

/-- The text content of a subtree: its own Data when it is a TextNode,
followed by the text content of its children in order. -/
def flat : HNode → String
  | HNode.mk d cl => (if d.ntype = NType.textNode then d.data else "") ++ flatL cl

/-- The concatenated text content of a list of subtrees. -/
def flatL : List HNode → String
  | [] => ""
  | c :: r => flat c ++ flatL r

end

theorem flat_posChildren : ∀ (todo : List HNode),
    (∀ c, c ∈ todo → ∀ cs, joinTexts (posList c cs) = flat c) →
    ∀ (d : NData) (lrev : List HNode) (cs : List Crumb),
      joinTexts (posChildren d lrev todo cs) = flatL todo := by
  intro todo
  induction todo with
  | nil => intro _ d lrev cs; rfl
  | cons c rest ihr =>
    intro iht d lrev cs
    rw [posChildren, joinTexts_append, iht c (by simp) (⟨d, lrev, rest⟩ :: cs),
      ihr (fun x hx => iht x (by simp [hx])) d (c :: lrev) cs, flatL]

theorem flat_posList : ∀ (t : HNode) (cs : List Crumb), joinTexts (posList t cs) = flat t := by
  apply HNode.strongRecOn (P := fun t => ∀ cs, joinTexts (posList t cs) = flat t)
  intro d cl iht cs
  rw [posList, joinTexts, flat_posChildren cl iht d [] cs, flat]
  rfl

/-- With fuel for the whole subtree, Flatten bounded at a node computes
exactly the subtree's text content (independent of the node's context). -/
theorem flatten_complete (t : HNode) (cs : List Crumb) (fuel : Nat) :
    Flatten (count t + fuel) (some ⟨t, cs⟩) = flat t := by
  rw [Flatten, flattenLoop_eq_join, trav_complete, flat_posList]

theorem flatL_eq_foldr : ∀ cl : List HNode,
    flatL cl = (cl.map flat).foldr (fun a b => a ++ b) "" := by
  intro cl
  induction cl with
  | nil => rfl
  | cons c r ih => rw [flatL, ih]; rfl

/-- C8 counterexample: the claim says Flatten of every subtree equals
the concatenation of Flatten applied to the subtree's children; for the
single-node subtree consisting of a TextNode with Data "x", Flatten
returns "x" while the concatenation over the (empty) children is "". -/
theorem flatten_text_root_cex :
    ¬ (Flatten 1 (some ⟨HNode.mk ⟨NType.textNode, "x", "", []⟩ [], []⟩)
        = ((([] : List HNode).map fun c => Flatten 1 (some ⟨c, []⟩)).foldr
            (fun a b => a ++ b) "")) := by
  decide

/-- C8 amended: Flatten of a subtree equals the root node's own textual
payload (its Data if it is a TextNode, the empty string otherwise)
followed by the concatenation, in child order, of Flatten applied to
each of the root's children; equivalently Flatten concatenates, in
traversal order, the Data of every TextNode with no separators. -/
theorem flatten_root_and_children (d : NData) (cl : List HNode) (cs : List Crumb) (fuel : Nat) :
    Flatten (count (HNode.mk d cl) + fuel) (some ⟨HNode.mk d cl, cs⟩)
      = (if d.ntype = NType.textNode then d.data else "")
          ++ (cl.map fun c => Flatten (count c) (some ⟨c, []⟩)).foldr (fun a b => a ++ b) "" := by
  rw [flatten_complete, flat]
  have hmap : ∀ c : HNode, Flatten (count c) (some (⟨c, []⟩ : Pos)) = flat c := by
    intro c
    have := flatten_complete c [] 0
    rw [Nat.add_zero] at this
    exact this
  have : (cl.map fun c => Flatten (count c) (some (⟨c, []⟩ : Pos))) = cl.map flat := by
    apply List.map_congr_left
    intro c _
    exact hmap c
  rw [this, ← flatL_eq_foldr]

theorem sizeOfL_append : ∀ l1 l2 : List HNode, sizeOf (l1 ++ l2) + 1 = sizeOf l1 + sizeOf l2 := by
  intro l1 l2
  induction l1 with
  | nil => simp; omega
  | cons a l ih => simp at ih ⊢; omega

theorem sizeOf_reverseL : ∀ l : List HNode, sizeOf l.reverse = sizeOf l := by
  intro l
  induction l with
  | nil => rfl
  | cons a l ih =>
    rw [List.reverse_cons]
    have h := sizeOfL_append l.reverse [a]
    rw [ih] at h
    simp at h ⊢
    omega

theorem countL_append : ∀ l1 l2 : List HNode, countL (l1 ++ l2) = countL l1 + countL l2 := by
  intro l1 l2
  induction l1 with
  | nil => simp [countL]
  | cons a l ih => simp [countL, ih]; omega

theorem countL_reverse : ∀ l : List HNode, countL l.reverse = countL l := by
  intro l
  induction l with
  | nil => rfl
  | cons a l ih =>
    rw [List.reverse_cons, countL_append, ih, countL, countL, countL]
    omega

mutual

/-- The positions of all nodes of the subtree focused at (t, cs) in the
order visited by the reverse traversal: node first, then the subtrees of
its children right to left (the mirror image of preorder). -/
def posListP : HNode → List Crumb → List Pos
  | HNode.mk d cl, cs => ⟨HNode.mk d cl, cs⟩ :: posChildrenP d cl.reverse [] cs
termination_by t _ => sizeOf t
decreasing_by
  simp [sizeOf_reverseL]

/-- The positions contributed by the children still to process in the
reverse traversal: lrev holds them nearest-to-the-right first (i.e. the
rightmost unprocessed child first), r the already-processed later
siblings in order. -/
def posChildrenP : NData → List HNode → List HNode → List Crumb → List Pos
  | _, [], _, _ => []
  | d, c :: lrev, r, cs =>
    posListP c (⟨d, lrev, r⟩ :: cs) ++ posChildrenP d lrev (c :: r) cs
termination_by _ lrev _ _ => sizeOf lrev
decreasing_by
  all_goals first
  | (simp; omega)
  | simp

end

/-- The state of the reverse traversal upon arriving at the first
element of lrev (the next child to visit, moving right to left), or,
when lrev is exhausted, the state after ascending out of the parent. -/
def childStartP (d : NData) (lrev r : List HNode) (cs : List Crumb)
    (root : Option Pos) : Option Pos :=
  match lrev with
  | [] => (prevAscend root (HNode.mk d r) cs 0).1
  | c :: lrev' => some ⟨c, ⟨d, lrev', r⟩ :: cs⟩

theorem prevAscend_shift : ∀ (cs : List Crumb) (t : HNode) (root : Option Pos) (delta : Int),
    prevAscend root t cs delta
      = ((prevAscend root t cs 0).1, delta + (prevAscend root t cs 0).2) := by
  intro cs
  induction cs with
  | nil => intro t root delta; simp [prevAscend]
  | cons c cs' ih =>
    intro t root delta
    obtain ⟨d, l, r⟩ := c
    cases l with
    | cons c' l'' =>
      simp only [prevAscend]
      by_cases hr : some (⟨t, ⟨d, c' :: l'', r⟩ :: cs'⟩ : Pos) = root
      · rw [if_pos hr, if_pos hr]
        simp
      · rw [if_neg hr, if_neg hr]
        simp
    | nil =>
      simp only [prevAscend]
      by_cases hr : some (⟨t, ⟨d, [], r⟩ :: cs'⟩ : Pos) = root
      · rw [if_pos hr, if_pos hr]
        simp
      · rw [if_neg hr, if_neg hr]
        rw [ih, ih (HNode.mk d (t :: r)) root (0 - 1)]
        simp only [Prod.mk.injEq]
        exact ⟨trivial, by omega⟩

theorem prevAscend_self : ∀ (cs : List Crumb) (t : HNode),
    prevAscend (some ⟨t, cs⟩) t cs 0 = (none, 0) := by
  intro cs t
  cases cs with
  | nil => rfl
  | cons c cs' =>
    obtain ⟨d, l, r⟩ := c
    cases l with
    | nil => simp [prevAscend]
    | cons c' l'' => simp [prevAscend]

/-- The reverse-traversal equation for one whole subtree. -/
def PrevRunOK (t : HNode) : Prop :=
  ∀ (cs : List Crumb) (root : Option Pos) (fuel : Nat), rootOK root cs.length →
    travListPrev (count t + fuel) (some ⟨t, cs⟩) root
      = posListP t cs ++ travListPrev fuel (prevAscend root t cs 0).1 root

theorem prevAscend_cons_first (d : NData) (lrev r : List HNode) (c : HNode)
    (cs : List Crumb) (root : Option Pos)
    (hne : some (⟨c, ⟨d, lrev, r⟩ :: cs⟩ : Pos) ≠ root) :
    (prevAscend root c (⟨d, lrev, r⟩ :: cs) 0).1 = childStartP d lrev (c :: r) cs root := by
  cases lrev with
  | nil =>
    simp only [prevAscend, childStartP]
    rw [if_neg hne]
    rw [prevAscend_shift]
  | cons c' l'' =>
    simp only [prevAscend, childStartP]
    rw [if_neg hne]

theorem prevRun_children : ∀ (lrev : List HNode), (∀ c, c ∈ lrev → PrevRunOK c) →
    ∀ (d : NData) (r : List HNode) (cs : List Crumb) (root : Option Pos) (fuel : Nat),
      rootOK root cs.length →
      travListPrev (countL lrev + fuel) (childStartP d lrev r cs root) root
        = posChildrenP d lrev r cs
            ++ travListPrev fuel (prevAscend root (HNode.mk d (lrev.reverse ++ r)) cs 0).1 root := by
  intro lrev
  induction lrev with
  | nil =>
    intro _ d r cs root fuel _
    simp [countL, childStartP, posChildrenP]
  | cons c lrev' ihr =>
    intro iht d r cs root fuel hroot
    have hcnt : countL (c :: lrev') + fuel = count c + (countL lrev' + fuel) := by
      rw [countL]; omega
    rw [hcnt]
    have hcs : childStartP d (c :: lrev') r cs root = some ⟨c, ⟨d, lrev', r⟩ :: cs⟩ := rfl
    rw [hcs]
    have h1 := iht c (by simp) (⟨d, lrev', r⟩ :: cs) root (countL lrev' + fuel)
      (rootOK_mono hroot (by simp))
    rw [h1]
    have hne : some (⟨c, ⟨d, lrev', r⟩ :: cs⟩ : Pos) ≠ root :=
      rootOK_ne hroot c (⟨d, lrev', r⟩ :: cs) (by simp)
    rw [prevAscend_cons_first d lrev' r c cs root hne]
    rw [ihr (fun x hx => iht x (by simp [hx])) d (c :: r) cs root fuel hroot]
    have htree : lrev'.reverse ++ (c :: r) = (c :: lrev').reverse ++ r := by
      simp
    rw [htree, posChildrenP, List.append_assoc]

theorem prevRunOK_all : ∀ t : HNode, PrevRunOK t := by
  apply HNode.strongRecOn
  intro d cl iht cs root fuel hroot
  have hcnt : count (HNode.mk d cl) + fuel = (countL cl.reverse + fuel) + 1 := by
    rw [count, countL_reverse]; omega
  rw [hcnt, travListPrev]
  have hfc : (Prev (some ⟨HNode.mk d cl, cs⟩) root).1 = childStartP d cl.reverse [] cs root := by
    cases hrev : cl.reverse with
    | nil =>
      have hcl : cl = [] := by
        have := congrArg List.reverse hrev
        simpa using this
      subst hcl
      simp [Prev, Pos.lastChild, childStartP]
    | cons c lrev =>
      simp [Prev, Pos.lastChild, hrev, childStartP]
  rw [hfc, prevRun_children cl.reverse
    (fun c hc => iht c (by rw [List.mem_reverse] at hc; exact hc)) d [] cs root fuel hroot]
  rw [posListP]
  simp

theorem trav_completeP (t : HNode) (cs : List Crumb) (fuel : Nat) :
    travListPrev (count t + fuel) (some ⟨t, cs⟩) (some ⟨t, cs⟩) = posListP t cs := by
  rw [prevRunOK_all t cs (some ⟨t, cs⟩) fuel (rootOK_self t cs), prevAscend_self,
    travListPrev_none, List.append_nil]

/-- A two-node tree (an element with one element child) on which the
forward/backward round trip of the traversal claim fails. -/
def cexTree : HNode :=
  HNode.mk ⟨NType.elementNode, "", "", []⟩ [HNode.mk ⟨NType.elementNode, "", "", []⟩ []]

/-- The two-node tree as a rooted position. -/
def cexRoot : Pos := ⟨cexTree, []⟩

/-- C3 counterexample: on the two-node tree the forward sequence is
[root, child]; its last node is the child, and the reverse walk from the
child (bounded by the same root) is just [child], because Prev ascends
from the child to the root and stops without yielding it.  The reversed
forward sequence [child, root] therefore differs from the Prev
sequence. -/
theorem prev_not_inverse_cex :
    ¬ ((travList 5 (some cexRoot) (some cexRoot)).reverse
        = travListPrev 5 (travList 5 (some cexRoot) (some cexRoot)).getLast?
            (some cexRoot)) := by
  decide

/-- C3 corrected: Prev is the mirror image of Next, not its inverse.
For every fixed subtree, repeated forward steps from the subtree root
visit the subtree's positions in preorder (children left to right),
while repeated reverse steps from the same subtree root visit them in
the mirrored preorder (each node before its children, children right to
left); reversing the forward sequence does not in general reproduce the
Prev sequence started at the last forward node. -/
theorem prev_is_mirror_traversal (t : HNode) (cs : List Crumb) (fuel : Nat) :
    travList (count t + fuel) (some ⟨t, cs⟩) (some ⟨t, cs⟩) = posList t cs ∧
      travListPrev (count t + fuel) (some ⟨t, cs⟩) (some ⟨t, cs⟩) = posListP t cs :=
  ⟨trav_complete t cs fuel, trav_completeP t cs fuel⟩

/-- Whether a string consists only of the characters of the cutset
"\r\n\t " that PrintTree trims: strings.Trim(s, cutset) is empty exactly
when every character of s lies in the cutset. -/
def wsOnly (s : String) : Bool :=
  s.data.all fun c => decide (c = '\r' ∨ c = '\n' ∨ c = '\t' ∨ c = ' ')

/-- The indentation-shrinking loop of PrintTree
(htmlnode.go lines 426-429): while delta is negative, slice the last two
characters off the indentation string and increment delta.  The Go slice
indent[:len(indent)-2] panics when len(indent) < 2; the panic is the
none outcome here. -/
def shrinkN : List Char → Nat → Option (List Char)
  | s, 0 => some s
  | s, k + 1 => if s.length < 2 then none else shrinkN (s.take (s.length - 2)) k

/-- The loop of PrintTree (htmlnode.go lines 410-432): visit the tree at
root with Next, printing each node (indentation first) unless it is a
whitespace-only TextNode, growing the indentation by two spaces on a
descent (delta = 1) and shrinking it by one two-character unit per unit
of negative delta otherwise.  A printed line is recorded as the pair of
the indentation and the node's data (the String rendering of the node is
colour formatting, outside the core); lines accumulate in reverse.  The
none outcome is the slice panic; the output sink is modelled as
infallible, write errors being the claim-irrelevant early return. -/
def printLoop : Nat → Option Pos → Option Pos → List Char →
    List (List Char × NData) → Option (List (List Char × NData))
  | 0, _, _, _, acc => some acc
  | _ + 1, none, _, _, acc => some acc
  | fuel + 1, some p, root, indent, acc =>
    let acc' := if p.nd.ntype = NType.textNode ∧ wsOnly p.nd.data = true then acc
                else (indent, p.nd) :: acc
    let r := Next (some p) root
    if r.2 = 1 then printLoop fuel r.1 root (indent ++ [' ', ' ']) acc'
    else (shrinkN indent ((-r.2).toNat)).bind fun ind' => printLoop fuel r.1 root ind' acc'

/-- PrintTree (htmlnode.go lines 410-432): run the print loop from root
with empty indentation. -/
def PrintTree (fuel : Nat) (root : Option Pos) : Option (List (List Char × NData)) :=
  printLoop fuel root root [] []

theorem printLoop_none (fuel : Nat) (root : Option Pos) (indent : List Char)
    (acc : List (List Char × NData)) : printLoop fuel none root indent acc = some acc := by
  cases fuel <;> rfl

theorem shrinkN_append2 (s : List Char) (a b : Char) (k : Nat) :
    shrinkN (s ++ [a, b]) (k + 1) = shrinkN s k := by
  rw [shrinkN]
  have hlen : ¬ (s ++ [a, b]).length < 2 := by simp
  rw [if_neg hlen]
  have htake : (s ++ [a, b]).take ((s ++ [a, b]).length - 2) = s := by
    have h2 : (s ++ [a, b]).length - 2 = s.length := by simp
    rw [h2]
    exact List.take_left s [a, b]
  rw [htake]

/-- The indentation bookkeeping for one whole subtree: starting at the
subtree's top with any indentation, the loop processes the whole subtree
without panicking and returns to the same indentation, the single
boundary-crossing shrink being exactly the shrink of the ascent out of
the subtree's top. -/
def PrintRunOK (t : HNode) : Prop :=
  ∀ (cs : List Crumb) (root : Option Pos) (fuel : Nat) (indent : List Char)
    (acc : List (List Char × NData)), rootOK root cs.length →
    ∃ acc', printLoop (count t + fuel) (some ⟨t, cs⟩) root indent acc
      = (shrinkN indent ((-(nextAscend root t cs 0).2).toNat)).bind
          fun ind' => printLoop fuel (nextAscend root t cs 0).1 root ind' acc'

theorem printRun_children : ∀ (todo : List HNode), todo ≠ [] →
    (∀ c, c ∈ todo → PrintRunOK c) →
    ∀ (d : NData) (lrev : List HNode) (cs : List Crumb) (root : Option Pos) (fuel : Nat)
      (indent : List Char) (acc : List (List Char × NData)), rootOK root cs.length →
      ∃ acc', printLoop (countL todo + fuel) (childStart d lrev todo cs root) root
          (indent ++ [' ', ' ']) acc
        = (shrinkN indent
              ((-(nextAscend root (HNode.mk d (lrev.reverse ++ todo)) cs 0).2).toNat)).bind
            fun ind' =>
              printLoop fuel (nextAscend root (HNode.mk d (lrev.reverse ++ todo)) cs 0).1
                root ind' acc' := by
  intro todo
  induction todo with
  | nil => intro hne; exact absurd rfl hne
  | cons c rest ihr =>
    intro _ iht d lrev cs root fuel indent acc hroot
    have hcnt : countL (c :: rest) + fuel = count c + (countL rest + fuel) := by
      rw [countL]; omega
    rw [hcnt]
    have hcs : childStart d lrev (c :: rest) cs root = some ⟨c, ⟨d, lrev, rest⟩ :: cs⟩ := rfl
    rw [hcs]
    obtain ⟨acc1, h1⟩ := iht c (by simp) (⟨d, lrev, rest⟩ :: cs) root (countL rest + fuel)
      (indent ++ [' ', ' ']) acc (rootOK_mono hroot (by simp))
    rw [h1]
    have hne : some (⟨c, ⟨d, lrev, rest⟩ :: cs⟩ : Pos) ≠ root :=
      rootOK_ne hroot c (⟨d, lrev, rest⟩ :: cs) (by simp)
    cases rest with
    | nil =>
      have hstep : nextAscend root c (⟨d, lrev, []⟩ :: cs) 0
          = ((nextAscend root (HNode.mk d (lrev.reverse ++ [c])) cs 0).1,
              0 - 1 + (nextAscend root (HNode.mk d (lrev.reverse ++ [c])) cs 0).2) := by
        simp only [nextAscend]
        rw [if_neg hne, nextAscend_shift]
      rw [hstep]
      have hA := nextAscend_nonpos cs (HNode.mk d (lrev.reverse ++ [c])) root
      have htN : (-(0 - 1 + (nextAscend root (HNode.mk d (lrev.reverse ++ [c])) cs 0).2)).toNat
          = (-(nextAscend root (HNode.mk d (lrev.reverse ++ [c])) cs 0).2).toNat + 1 := by
        omega
      simp only
      rw [htN, shrinkN_append2]
      exact ⟨acc1, by simp [countL]⟩
    | cons s r' =>
      have hstep : nextAscend root c (⟨d, lrev, s :: r'⟩ :: cs) 0
          = (childStart d (c :: lrev) (s :: r') cs root, 0) := by
        simp only [nextAscend, childStart]
        rw [if_neg hne]
      rw [hstep]
      simp only [Int.neg_zero, Int.toNat_zero, shrinkN, Option.some_bind]
      obtain ⟨acc2, h2⟩ := ihr (by simp) (fun x hx => iht x (by simp [hx])) d (c :: lrev)
        cs root fuel indent acc1 hroot
      have htree : (c :: lrev).reverse ++ s :: r' = lrev.reverse ++ (c :: s :: r') := by
        simp
      rw [htree] at h2
      rw [h2]
      exact ⟨acc2, rfl⟩

theorem printRunOK_all : ∀ t : HNode, PrintRunOK t := by
  apply HNode.strongRecOn
  intro d cl iht cs root fuel indent acc hroot
  have hcnt : count (HNode.mk d cl) + fuel = (countL cl + fuel) + 1 := by
    rw [count]; omega
  rw [hcnt]
  cases cl with
  | nil =>
    have hnx : Next (some ⟨HNode.mk d [], cs⟩) root = nextAscend root (HNode.mk d []) cs 0 := by
      simp [Next, Pos.firstChild]
    have hno : ¬ ((Next (some ⟨HNode.mk d [], cs⟩) root).2 = 1) := by
      rw [hnx]
      have := nextAscend_nonpos cs (HNode.mk d []) root
      omega
    simp only [printLoop]
    rw [if_neg hno, hnx]
    simp only [countL, Nat.zero_add]
    exact ⟨_, rfl⟩
  | cons c r =>
    have hnx : Next (some ⟨HNode.mk d (c :: r), cs⟩) root
        = (childStart d [] (c :: r) cs root, 1) := by
      simp [Next, Pos.firstChild, childStart]
    simp only [printLoop]
    rw [hnx]
    have hone : ((childStart d [] (c :: r) cs root, (1 : Int)).2 = 1) := rfl
    rw [if_pos hone]
    obtain ⟨acc2, h2⟩ := printRun_children (c :: r) (by simp) iht d [] cs root fuel indent
      (if (⟨HNode.mk d (c :: r), cs⟩ : Pos).nd.ntype = NType.textNode
          ∧ wsOnly (⟨HNode.mk d (c :: r), cs⟩ : Pos).nd.data = true then acc
        else (indent, (⟨HNode.mk d (c :: r), cs⟩ : Pos).nd) :: acc) hroot
    simp only [List.reverse_nil, List.nil_append] at h2
    rw [h2]
    exact ⟨acc2, rfl⟩

/-- C10: starting PrintTree at any root bound of any finite tree, the
indentation string tracks twice the depth below the root, so the
two-characters-per-unit shrink on ascents never slices past the start of
the string: the print loop never reaches the panic outcome over a
complete traversal (with any surplus fuel). -/
theorem printTree_never_panics (t : HNode) (cs : List Crumb) (fuel : Nat) :
    (PrintTree (count t + fuel) (some ⟨t, cs⟩)).isSome = true := by
  obtain ⟨acc', h⟩ := printRunOK_all t cs (some ⟨t, cs⟩) fuel [] [] (rootOK_self t cs)
  rw [PrintTree, h, nextAscend_self]
  simp only [Int.neg_zero, Int.toNat_zero, shrinkN, Option.some_bind]
  rw [printLoop_none]
  rfl

end Htmlnode
